import Mathlib

/-!
Verification of the SkillAssessmentGenerator application (QAUpload/app.py).

Strings are modelled as lists of characters (`Str`). Python truthiness of a
string is emptiness; `str.strip`, `str.split`, `str.replace` and substring
containment are modelled below. Numeric percentages are modelled over `ℚ`.
The SQLite tables are modelled as lists of rows.
-/

abbrev Str := List Char

def lowerStr (s : Str) : Str := s.map Char.toLower

/-- Python `str.strip()`: drop whitespace on both ends. -/
def stripChars (s : Str) : Str :=
  ((s.dropWhile Char.isWhitespace).reverse.dropWhile Char.isWhitespace).reverse

/-- Python `pat in s`: some suffix of `s` starts with `pat`. -/
def containsSeq (pat s : Str) : Bool :=
  s.tails.any (fun t => pat.isPrefixOf t)

/-- Python `s.replace(pat, "")`, scanning left to right (fuelled recursion;
`removeSeq` below supplies fuel `s.length`, which is always sufficient). -/
def removeSeqFuel (pat : Str) : Nat → Str → Str
  | _, [] => []
  | 0, s => s
  | fuel + 1, c :: rest =>
    if pat ≠ [] && pat.isPrefixOf (c :: rest) then
      removeSeqFuel pat fuel ((c :: rest).drop pat.length)
    else
      c :: removeSeqFuel pat fuel rest

def removeSeq (pat s : Str) : Str := removeSeqFuel pat s.length s

/-- Python `s.split(sep)` for a non-empty separator string (fuelled recursion). -/
def splitOnSeqFuel (sep : Str) : Nat → Str → Str → List Str
  | _, [], acc => [acc.reverse]
  | 0, s, acc => [acc.reverse ++ s]
  | fuel + 1, c :: rest, acc =>
    if sep ≠ [] && sep.isPrefixOf (c :: rest) then
      acc.reverse :: splitOnSeqFuel sep fuel ((c :: rest).drop sep.length) []
    else
      splitOnSeqFuel sep fuel rest (c :: acc)

def splitOnSeq (sep s : Str) : List Str :=
  if sep = [] then [s] else splitOnSeqFuel sep s.length s []

/-!
## Grading (`display_assessment_questions`, submission handling)

For each question the stored record holds the submitted `choice`
(`None` or one of the option strings) and the extracted `correct` answer
string.  The code counts a question as correct via

  `if user_choice and correct_answer:
       if user_choice[0].lower() == correct_answer.lower(): correct_count += 1`
-/

/-- Grading step for one question: both strings truthy (non-empty, choice not
`None`) and the lower-cased first character of the choice, as a one-character
string, equals the lower-casing of the whole `correct` string. -/
def gradeOne : Option Str → Str → Bool
  | none, _ => false
  | some [], _ => false
  | some (c :: _), correct =>
    if correct.isEmpty then false
    else decide ([c.toLower] = lowerStr correct)

/-- The grading rule as the specification words it: the first character of
the submitted choice equals the first character of the correct option,
case-insensitively; absent or empty data counts as incorrect. -/
def specGradeOne : Option Str → Str → Bool
  | some (c :: _), d :: _ => decide (c.toLower = d.toLower)
  | _, _ => false

/-- The submission loop: `correct_count` starts at 0 and is incremented once
per correctly answered question. -/
def grade_correct_count (answers : List (Option Str × Str)) : Nat :=
  answers.foldl (fun acc a => if gradeOne a.1 a.2 then acc + 1 else acc) 0

/-- Python `score_percentage = (correct_count / total) * 100 if total > 0 else 0`. -/
def score_percentage (correct total : Nat) : ℚ :=
  if 0 < total then ((correct : ℚ) / (total : ℚ)) * 100 else 0

/-!
## Skill level (`determine_level`)
-/

def determine_level (score : ℚ) : Str :=
  if 90 ≤ score then "Expert".toList
  else if 75 ≤ score then "Advanced".toList
  else if 60 ≤ score then "Intermediate".toList
  else if 40 ≤ score then "Beginner".toList
  else "Novice".toList

/-- Numeric height of a level name, for stating monotonicity. -/
def levelRank (s : Str) : Nat :=
  if s = "Expert".toList then 4
  else if s = "Advanced".toList then 3
  else if s = "Intermediate".toList then 2
  else if s = "Beginner".toList then 1
  else 0

/-- The level table exactly as the specification states it, with explicit
half-open ranges. -/
def levelTable (p : ℚ) : Str :=
  if 90 ≤ p then "Expert".toList
  else if 75 ≤ p ∧ p < 90 then "Advanced".toList
  else if 60 ≤ p ∧ p < 75 then "Intermediate".toList
  else if 40 ≤ p ∧ p < 60 then "Beginner".toList
  else "Novice".toList

/-! ### Helper lemmas -/

theorem grade_correct_count_eq_countP (answers : List (Option Str × Str)) :
    grade_correct_count answers = answers.countP (fun a => gradeOne a.1 a.2) := by
  have key : ∀ (l : List (Option Str × Str)) (n : Nat),
      l.foldl (fun acc a => if gradeOne a.1 a.2 then acc + 1 else acc) n =
        n + l.countP (fun a => gradeOne a.1 a.2) := by
    intro l
    induction l with
    | nil => intro n; simp
    | cons a tl ih =>
      intro n
      by_cases h : gradeOne a.1 a.2
      · simp [List.countP_cons, h, ih]
        omega
      · simp [List.countP_cons, h, ih]
  simpa using key answers 0

theorem levelRank_determine_level (p : ℚ) :
    levelRank (determine_level p) =
      (if 90 ≤ p then 4 else if 75 ≤ p then 3 else if 60 ≤ p then 2
       else if 40 ≤ p then 1 else 0) := by
  unfold determine_level
  split_ifs <;> rfl

/-! ### Claims about grading and levels -/

/-- C2: grading always yields `0 ≤ correctCount ≤ total`, and the computed
percentage equals `100 * correctCount / total`, with `0` when `total = 0`
(the division is guarded, grading is a total function). -/
theorem grade_bounds_and_percentage (answers : List (Option Str × Str)) :
    0 ≤ grade_correct_count answers ∧
    grade_correct_count answers ≤ answers.length ∧
    score_percentage (grade_correct_count answers) answers.length =
      (if answers.length = 0 then 0
       else 100 * (grade_correct_count answers : ℚ) / (answers.length : ℚ)) := by
  refine ⟨Nat.zero_le _, ?_, ?_⟩
  · rw [grade_correct_count_eq_countP]
    exact List.countP_le_length _
  · unfold score_percentage
    rcases Nat.eq_zero_or_pos answers.length with h | h
    · simp [h]
    · have hne : answers.length ≠ 0 := Nat.pos_iff_ne_zero.mp h
      rw [if_pos h, if_neg hne]
      ring

/-- C3 counterexample: with submitted choice "ab" and correct option "ab",
the claimed rule (compare first characters case-insensitively) marks the
question correct, but the code compares the first character of the choice with the
whole lower-cased correct string and marks it incorrect. -/
theorem grade_first_char_rule_refuted :
    specGradeOne (some ['a', 'b']) ['a', 'b'] = true ∧
    gradeOne (some ['a', 'b']) ['a', 'b'] = false := by
  constructor <;> rfl

/-- C3 (amended): a question counts as correct exactly when the submission is
present and non-empty, the correct string is non-empty, and the lower-cased
first character of the choice — as a one-character string — equals the
lower-casing of the whole correct string (so a correct string longer than one
character never matches).  Absent submissions and absent/empty correct strings
count as incorrect, and grading is total (never raises).  Whenever the code
counts a question correct, the first-character rule of the claim also does. -/
theorem grade_char_eq_whole_lowered (choice : Option Str) (correct : Str) :
    (gradeOne choice correct = true ↔
      ∃ c cs, choice = some (c :: cs) ∧ correct ≠ [] ∧
        [c.toLower] = lowerStr correct) ∧
    gradeOne none correct = false ∧
    gradeOne choice [] = false ∧
    (gradeOne choice correct = true → specGradeOne choice correct = true) := by
  refine ⟨?_, rfl, ?_, ?_⟩
  · constructor
    · intro h
      match choice with
      | none => simp [gradeOne] at h
      | some [] => simp [gradeOne] at h
      | some (c :: cs) =>
        refine ⟨c, cs, rfl, ?_, ?_⟩
        · intro hc
          subst hc
          simp [gradeOne] at h
        · unfold gradeOne at h
          by_cases hc : correct.isEmpty
          · simp [hc] at h
          · simpa [hc] using h
    · rintro ⟨c, cs, rfl, hne, heq⟩
      unfold gradeOne
      have : correct.isEmpty = false := by
        cases correct with
        | nil => exact absurd rfl hne
        | cons d ds => rfl
      simp [this, heq]
  · match choice with
    | none => rfl
    | some [] => rfl
    | some (c :: cs) => rfl
  · intro h
    match choice with
    | none => simp [gradeOne] at h
    | some [] => simp [gradeOne] at h
    | some (c :: cs) =>
      unfold gradeOne at h
      match correct with
      | [] => simp at h
      | d :: ds =>
        simp only [List.isEmpty_cons, if_neg] at h
        have heq : [c.toLower] = lowerStr (d :: ds) := by
          by_cases hq : [c.toLower] = lowerStr (d :: ds)
          · exact hq
          · simp [hq] at h
        unfold lowerStr at heq
        simp only [List.map_cons] at heq
        have hcd : c.toLower = d.toLower := by
          injection heq with h1 h2
        simp [specGradeOne, hcd]

/-- C4: `determine_level` agrees with the level table of the specification at every
rational percentage (so in particular at all the stated boundary points), and
is monotonic non-decreasing in the percentage. -/
theorem determine_level_matches_table_and_monotone :
    (∀ p : ℚ, determine_level p = levelTable p) ∧
    (∀ p q : ℚ, p ≤ q →
      levelRank (determine_level p) ≤ levelRank (determine_level q)) ∧
    determine_level 90 = "Expert".toList ∧
    determine_level (899 / 10) = "Advanced".toList ∧
    determine_level 75 = "Advanced".toList ∧
    determine_level (599 / 10) = "Beginner".toList ∧
    determine_level (399 / 10) = "Novice".toList := by
  refine ⟨?_, ?_, ?_, ?_, ?_, ?_, ?_⟩
  · intro p
    unfold determine_level levelTable
    by_cases h90 : 90 ≤ p
    · simp [h90]
    · by_cases h75 : 75 ≤ p
      · simp [h90, h75, not_le.mp h90]
      · by_cases h60 : 60 ≤ p
        · simp [h90, h75, h60, not_le.mp h75]
        · by_cases h40 : 40 ≤ p
          · simp [h90, h75, h60, h40, not_le.mp h60]
          · simp [h90, h75, h60, h40]
  · intro p q hpq
    rw [levelRank_determine_level, levelRank_determine_level]
    split_ifs <;> first | omega | linarith
  · norm_num [determine_level]
  · norm_num [determine_level]
  · norm_num [determine_level]
  · norm_num [determine_level]
  · norm_num [determine_level]

/-!
## Generation with credential fallback (`generate_with_fallback`)

The engine walks a fixed list of API keys.  Each attempt either returns text
(empty responses are raised and caught as errors) or fails with an error
message.  A failure whose lower-cased message contains one of the
quota/rate/auth keywords triggers `time.sleep(1)` and a retry with the next
key; any other failure reports the error and returns `None` immediately;
when the key list runs out a terminal `RuntimeError` is raised.

Attempts are modelled by an oracle `f` from the key to its result; the
outcome records the returned value or raised error, and the total number of
one-second sleeps performed is returned alongside.
-/

inductive GenResult where
  | ok (text : Str)
  | err (msg : Str)
deriving DecidableEq

inductive GenOutcome where
  /-- Python `return response.text.strip()`. -/
  | success (text : Str)
  /-- Python `st.error(...); return None`. -/
  | errorNone (msg : Str)
  /-- Python `raise RuntimeError` once the key list is exhausted. -/
  | exhausted
deriving DecidableEq

def retryKeywords : List Str :=
  ["quota".toList, "limit".toList, "429".toList, "permission".toList,
   "auth".toList, "key".toList]

/-- Python `any(k in error_msg for k in [...])` with `error_msg = str(e).lower()`. -/
def isRetryableError (msg : Str) : Bool :=
  retryKeywords.any (fun k => containsSeq k (lowerStr msg))

/-- The key loop of `generate_with_fallback`, run against attempt oracle `f`.
Returns the outcome and the number of one-second backoff sleeps. -/
def generate_with_fallback (f : Str → GenResult) : List Str → GenOutcome × Nat
  | [] => (.exhausted, 0)
  | k :: rest =>
    match f k with
    | .ok t => (.success (stripChars t), 0)
    | .err m =>
      if isRetryableError m then
        ((generate_with_fallback f rest).1, (generate_with_fallback f rest).2 + 1)
      else
        (.errorNone m, 0)

/-- C9: a quota/auth/rate-limit failure sleeps one second and retries with the
rest of the credential list; any other failure is surfaced immediately to the
caller with no retry and no sleep, whatever credentials remain; and the
terminal "all keys exhausted" error arises exactly when every key in the list
fails with a retryable error. -/
theorem generate_with_fallback_policy (f : Str → GenResult) :
    (∀ k rest m, f k = .err m → isRetryableError m = true →
      generate_with_fallback f (k :: rest) =
        ((generate_with_fallback f rest).1,
         (generate_with_fallback f rest).2 + 1)) ∧
    (∀ k rest m, f k = .err m → isRetryableError m = false →
      generate_with_fallback f (k :: rest) = (.errorNone m, 0)) ∧
    (∀ keys, (generate_with_fallback f keys).1 = .exhausted ↔
      ∀ k ∈ keys, ∃ m, f k = .err m ∧ isRetryableError m = true) := by
  refine ⟨?_, ?_, ?_⟩
  · intro k rest m hf hr
    simp [generate_with_fallback, hf, hr]
  · intro k rest m hf hr
    simp [generate_with_fallback, hf, hr]
  · intro keys
    induction keys with
    | nil => simp [generate_with_fallback]
    | cons k rest ih =>
      constructor
      · intro h
        cases hf : f k with
        | ok t => simp [generate_with_fallback, hf] at h
        | err m =>
          by_cases hr : isRetryableError m
          · intro x hx
            rcases List.mem_cons.mp hx with hx | hx
            · subst hx
              exact ⟨m, hf, hr⟩
            · exact ih.mp (by simpa [generate_with_fallback, hf, hr] using h) x hx
          · simp [generate_with_fallback, hf, hr] at h
      · intro h
        rcases h k (by simp) with ⟨m, hf, hr⟩
        have hrest : ∀ x ∈ rest, ∃ m, f x = .err m ∧ isRetryableError m = true := by
          intro x hx
          exact h x (by simp [hx])
        simp [generate_with_fallback, hf, hr, ih.mpr hrest]

/-!
## Certificates and score saving (`save_user_score`, `init_db`)

The `certificates` table has `id INTEGER PRIMARY KEY AUTOINCREMENT` and
`certificate_id TEXT UNIQUE`; `certificate_id` is built as
`f"CERT-{user_id}-{int(time.time())}"`, which determines and is determined by
the pair (user id, whole-second issue time), modelled here as that pair.
`INSERT OR REPLACE` removes any row conflicting on the unique
`certificate_id` and inserts the new row.
-/

structure Cert where
  user_id : Nat
  certificate_id : Nat × Nat
  topic : Str
  score : Nat
  issue_date : Nat
  expiry_date : Nat
deriving DecidableEq

/-- SQL `INSERT OR REPLACE INTO certificates ...` with the generated
`certificate_id` and a one-year expiry. -/
def insertCertificate (certs : List Cert) (u : Nat) (t : Str) (score now : Nat) :
    List Cert :=
  certs.filter (fun c => c.certificate_id ≠ (u, now)) ++
    [{ user_id := u, certificate_id := (u, now), topic := t, score := score,
       issue_date := now, expiry_date := now + 365 * 24 * 60 * 60 }]

structure ScoreRow where
  user_id : Nat
  topic : Str
  score : Nat
  total_questions : Nat
  difficulty : Str
  level : Option Str
  timestamp : Nat
deriving DecidableEq

/-!
## Leaderboard (`update_leaderboard`, `recalculate_leaderboard_ranks`)

A leaderboard row carries the autoincrement `id` primary key; `rank` is
`NULL` until first assigned, hence `Option Nat`.  Timestamps are
whole-second counters, percentages rationals.
-/

structure Entry where
  id : Nat
  user_id : Nat
  topic : Str
  score : Nat
  total_questions : Nat
  percentage : ℚ
  rank : Option Nat
  timestamp : Nat
deriving DecidableEq

/-- SQL `ORDER BY percentage DESC, timestamp DESC` as a boolean total preorder. -/
def entryLE (a b : Entry) : Bool :=
  decide (b.percentage < a.percentage ∨
    (a.percentage = b.percentage ∧ b.timestamp ≤ a.timestamp))

/-- SQL `SELECT id FROM leaderboard WHERE topic=? ORDER BY percentage DESC,
timestamp DESC`. -/
def sortedTopicIds (board : List Entry) (t : Str) : List Nat :=
  ((board.filter (fun e => e.topic = t)).mergeSort entryLE).map (fun e => e.id)

/-- SQL `UPDATE leaderboard SET rank=? WHERE id=?`. -/
def set_rank (board : List Entry) (eid r : Nat) : List Entry :=
  board.map (fun e => if e.id = eid then { e with rank := some r } else e)

/-- Python `for rank, (entry_id,) in enumerate(entries, start=n): UPDATE ...`. -/
def assign_ranks_from : List Nat → Nat → List Entry → List Entry
  | [], _, board => board
  | eid :: rest, n, board => assign_ranks_from rest (n + 1) (set_rank board eid n)

def recalculate_leaderboard_ranks (board : List Entry) (t : Str) : List Entry :=
  assign_ranks_from (sortedTopicIds board t) 1 board

/-- The per-row effect of the rank-assignment loop (the loop is a composition
of per-row `UPDATE`s, so it acts pointwise). -/
def rankFn : List Nat → Nat → Entry → Entry
  | [], _, e => e
  | eid :: rest, n, e =>
    rankFn rest (n + 1) (if e.id = eid then { e with rank := some n } else e)

/-- SQLite `AUTOINCREMENT`: a fresh id larger than every existing one. -/
def freshId (board : List Entry) : Nat :=
  board.foldr (fun e m => max e.id m) 0 + 1

/-- The per-row effect of `UPDATE leaderboard SET score=?, total_questions=?,
percentage=?, timestamp=CURRENT_TIMESTAMP WHERE user_id=? AND topic=? AND
? > percentage`. -/
def updateRow (u : Nat) (t : Str) (score total now : Nat) (e : Entry) : Entry :=
  if e.user_id = u ∧ e.topic = t ∧ e.percentage < score_percentage score total then
    { e with score := score, total_questions := total,
             percentage := score_percentage score total, timestamp := now }
  else e

/-- The row built by `INSERT INTO leaderboard (user_id, topic, score,
total_questions, percentage) VALUES (?, ?, ?, ?, ?)`. -/
def newEntry (board : List Entry) (u : Nat) (t : Str) (score total now : Nat) :
    Entry :=
  { id := freshId board, user_id := u, topic := t, score := score,
    total_questions := total, percentage := score_percentage score total,
    rank := none, timestamp := now }

/-- The table after the UPDATE-or-INSERT step of `update_leaderboard`. -/
def updatedBoard (board : List Entry) (u : Nat) (t : Str)
    (score total now : Nat) : List Entry :=
  if board.any (fun e => e.user_id = u && e.topic = t) then
    board.map (updateRow u t score total now)
  else
    board ++ [newEntry board u t score total now]

/-- Model of `update_leaderboard`: compute the percentage; if a row for
(user, topic) exists, overwrite rows of that pair whose stored percentage is
strictly below the new one (`... AND ? > percentage`); otherwise insert a
fresh row; finally recalculate the ranks of the topic. -/
def update_leaderboard (board : List Entry) (u : Nat) (t : Str)
    (score total now : Nat) : List Entry :=
  recalculate_leaderboard_ranks (updatedBoard board u t score total now) t

/-- One grading submission as fed to `update_leaderboard`, for stating
multi-step properties. -/
structure UpdOp where
  user : Nat
  topic : Str
  score : Nat
  total : Nat
  now : Nat
deriving DecidableEq

def apply_updates (board : List Entry) (ops : List UpdOp) : List Entry :=
  ops.foldl (fun b o => update_leaderboard b o.user o.topic o.score o.total o.now)
    board

/-!
## `save_user_score`

Appends the score row, issues a certificate when `score >= 80` — `score`
being the raw number of correct answers passed in by the grading code — and
updates the leaderboard.
-/

structure DB where
  scores : List ScoreRow
  certificates : List Cert
  leaderboard : List Entry
deriving DecidableEq

def save_user_score (db : DB) (u : Nat) (t : Str) (score total : Nat)
    (difficulty : Str) (level : Option Str) (now : Nat) : DB :=
  { scores := db.scores ++
      [{ user_id := u, topic := t, score := score, total_questions := total,
         difficulty := difficulty, level := level, timestamp := now }]
    certificates :=
      if 80 ≤ score then insertCertificate db.certificates u t score now
      else db.certificates
    leaderboard := update_leaderboard db.leaderboard u t score total now }

/-- The condition under which the submission-results screen announces an
earned certificate and enables the download button. -/
def announcesCertificate (p : ℚ) : Bool := decide (80 ≤ p)

/-!
## Question parsing (`display_assessment_questions`, form construction)

The generated text is split on blank lines; each block is stripped and split
into lines; blocks with fewer than 6 lines (or blank) are skipped; otherwise
line 0 is the question, lines 1-4 the options, and line 5 the answer line,
from which the correct answer is extracted by
`answer_line.replace("Answer: ", "").strip() if "Answer:" in answer_line
else ""`.
-/

structure Question where
  question : Str
  options : List Str
  correctOption : Str
deriving DecidableEq

def answerLabel : Str := "Answer:".toList

def answerLabelSpace : Str := "Answer: ".toList

def extractCorrect (answer_line : Str) : Str :=
  if containsSeq answerLabel answer_line then
    stripChars (removeSeq answerLabelSpace answer_line)
  else []

/-- A block survives when it is non-blank after stripping and has at least 6
lines. -/
def blockQualifies (b : Str) : Bool :=
  !(stripChars b).isEmpty &&
    6 ≤ (splitOnSeq ['\n'] (stripChars b)).length

/-- The question built from a qualifying block. -/
def questionOfBlock (b : Str) : Question :=
  let lines := splitOnSeq ['\n'] (stripChars b)
  { question := lines.getD 0 []
    options := (lines.drop 1).take 4
    correctOption := extractCorrect (lines.getD 5 []) }

def parseBlock (b : Str) : Option Question :=
  if blockQualifies b then some (questionOfBlock b) else none

def parseQuestions (raw : Str) : List Question :=
  (splitOnSeq ['\n', '\n'] raw).filterMap parseBlock

/-!
## Helper lemmas about the rank-assignment loop
-/

theorem assign_ranks_from_eq_map (ids : List Nat) (n : Nat) (board : List Entry) :
    assign_ranks_from ids n board = board.map (rankFn ids n) := by
  induction ids generalizing n board with
  | nil =>
    show board = board.map (fun e => e)
    simp
  | cons eid rest ih =>
    show assign_ranks_from rest (n + 1) (set_rank board eid n) = _
    rw [ih, set_rank, List.map_map]
    rfl

theorem recalc_eq_map (board : List Entry) (t : Str) :
    recalculate_leaderboard_ranks board t =
      board.map (rankFn (sortedTopicIds board t) 1) :=
  assign_ranks_from_eq_map _ _ _

theorem rankFn_frame (ids : List Nat) (n : Nat) (e : Entry) :
    (rankFn ids n e).id = e.id ∧ (rankFn ids n e).user_id = e.user_id ∧
    (rankFn ids n e).topic = e.topic ∧ (rankFn ids n e).score = e.score ∧
    (rankFn ids n e).total_questions = e.total_questions ∧
    (rankFn ids n e).percentage = e.percentage ∧
    (rankFn ids n e).timestamp = e.timestamp := by
  induction ids generalizing n e with
  | nil => exact ⟨rfl, rfl, rfl, rfl, rfl, rfl, rfl⟩
  | cons eid rest ih =>
    simp only [rankFn]
    by_cases h : e.id = eid
    · rw [if_pos h]
      exact ih (n + 1) { e with rank := some n }
    · rw [if_neg h]
      exact ih (n + 1) e

theorem rankFn_not_mem (ids : List Nat) (n : Nat) (e : Entry)
    (h : e.id ∉ ids) : rankFn ids n e = e := by
  induction ids generalizing n with
  | nil => rfl
  | cons eid rest ih =>
    have h1 : e.id ≠ eid := fun hc => h (by simp [hc])
    have h2 : e.id ∉ rest := fun hc => h (by simp [hc])
    simp only [rankFn]
    rw [if_neg h1]
    exact ih (n + 1) h2

theorem rankFn_at_position (ids : List Nat) (hnd : ids.Nodup) (k : Nat)
    (hk : k < ids.length) (n : Nat) (e : Entry) (he : e.id = ids.get ⟨k, hk⟩) :
    rankFn ids n e = { e with rank := some (n + k) } := by
  induction ids generalizing k n e with
  | nil => exact absurd hk (Nat.not_lt_zero k)
  | cons eid rest ih =>
    have hnotmem : eid ∉ rest := (List.nodup_cons.mp hnd).1
    have hrest : rest.Nodup := (List.nodup_cons.mp hnd).2
    cases k with
    | zero =>
      have he' : e.id = eid := he
      simp only [rankFn]
      rw [if_pos he']
      have hid : ({ e with rank := some n } : Entry).id ∉ rest := by
        simpa [he'] using hnotmem
      rw [rankFn_not_mem rest (n + 1) _ hid]
      rfl
    | succ j =>
      have hj : j < rest.length := Nat.lt_of_succ_lt_succ hk
      have he' : e.id = rest.get ⟨j, hj⟩ := he
      have hne : e.id ≠ eid := by
        intro hc
        exact hnotmem (hc ▸ he' ▸ List.get_mem rest j hj)
      simp only [rankFn]
      rw [if_neg hne, ih hrest j hj (n + 1) e he']
      have harith : n + 1 + j = n + (j + 1) := by omega
      rw [harith]

theorem sortedTopicIds_nodup (board : List Entry) (t : Str)
    (h : (board.map (fun e => e.id)).Nodup) : (sortedTopicIds board t).Nodup := by
  have h1 : List.Sublist (board.filter (fun e => e.topic = t)) board :=
    List.filter_sublist board
  have h2 : ((board.filter (fun e => e.topic = t)).map (fun e => e.id)).Nodup :=
    (h1.map (fun e => e.id)).nodup h
  have h3 : List.Perm ((board.filter (fun e => e.topic = t)).mergeSort entryLE)
      (board.filter (fun e => e.topic = t)) := List.mergeSort_perm _ _
  exact ((h3.map (fun e => e.id)).nodup_iff).mpr h2

theorem mem_sortedTopicIds (board : List Entry) (t : Str) (e : Entry)
    (he : e ∈ board) (ht : e.topic = t) : e.id ∈ sortedTopicIds board t := by
  have h1 : e ∈ board.filter (fun x => x.topic = t) :=
    List.mem_filter.mpr ⟨he, by simp [ht]⟩
  exact List.mem_map.mpr ⟨e, List.mem_mergeSort.mpr h1, rfl⟩

theorem not_mem_sortedTopicIds (board : List Entry) (t : Str)
    (h : (board.map (fun e => e.id)).Nodup) (e : Entry) (he : e ∈ board)
    (ht : e.topic ≠ t) : e.id ∉ sortedTopicIds board t := by
  intro hc
  rcases List.mem_map.mp hc with ⟨e2, he2, hid⟩
  have he2f : e2 ∈ board.filter (fun x => x.topic = t) :=
    List.mem_mergeSort.mp he2
  have he2b : e2 ∈ board := (List.mem_filter.mp he2f).1
  have he2t : e2.topic = t := by simpa using (List.mem_filter.mp he2f).2
  have : e2 = e := List.inj_on_of_nodup_map h he2b he hid
  exact ht (this ▸ he2t)

theorem rankFn_topic_row (board : List Entry) (t : Str)
    (h : (board.map (fun e => e.id)).Nodup) (e : Entry) (he : e ∈ board)
    (ht : e.topic = t) :
    rankFn (sortedTopicIds board t) 1 e =
      { e with rank := some (1 + (sortedTopicIds board t).indexOf e.id) } := by
  have hmem : e.id ∈ sortedTopicIds board t := mem_sortedTopicIds board t e he ht
  have hk : (sortedTopicIds board t).indexOf e.id < (sortedTopicIds board t).length :=
    List.indexOf_lt_length.mpr hmem
  exact rankFn_at_position _ (sortedTopicIds_nodup board t h) _ hk 1 e
    (List.indexOf_get hk).symm

theorem rankFn_other_topic (board : List Entry) (t : Str)
    (h : (board.map (fun e => e.id)).Nodup) (e : Entry) (he : e ∈ board)
    (ht : e.topic ≠ t) : rankFn (sortedTopicIds board t) 1 e = e :=
  rankFn_not_mem _ 1 e (not_mem_sortedTopicIds board t h e he ht)

theorem entryLE_trans (a b c : Entry) (hab : entryLE a b) (hbc : entryLE b c) :
    entryLE a c := by
  simp only [entryLE, decide_eq_true_eq] at hab hbc ⊢
  rcases hab with h | ⟨h1, h2⟩ <;> rcases hbc with g | ⟨g1, g2⟩
  · exact Or.inl (lt_trans g h)
  · exact Or.inl (g1 ▸ h)
  · exact Or.inl (h1 ▸ g)
  · exact Or.inr ⟨h1.trans g1, le_trans g2 h2⟩

theorem entryLE_total (a b : Entry) : entryLE a b || entryLE b a := by
  simp only [entryLE, Bool.or_eq_true, decide_eq_true_eq]
  rcases lt_trichotomy a.percentage b.percentage with h | h | h
  · exact Or.inr (Or.inl h)
  · rcases le_total b.timestamp a.timestamp with ht | ht
    · exact Or.inl (Or.inr ⟨h, ht⟩)
    · exact Or.inr (Or.inr ⟨h.symm, ht⟩)
  · exact Or.inl (Or.inl h)

theorem nodup_indexOf_get {α : Type} [DecidableEq α] {l : List α} (h : l.Nodup)
    (n : Nat) (hn : n < l.length) : l.indexOf (l.get ⟨n, hn⟩) = n := by
  have hmem : l.get ⟨n, hn⟩ ∈ l := List.get_mem l n hn
  have hlt : l.indexOf (l.get ⟨n, hn⟩) < l.length := List.indexOf_lt_length.mpr hmem
  have hget : l.get ⟨l.indexOf (l.get ⟨n, hn⟩), hlt⟩ = l.get ⟨n, hn⟩ :=
    List.indexOf_get hlt
  have hfin := (h.get_inj_iff).mp hget
  exact congrArg Fin.val hfin

theorem updateRow_frame (u : Nat) (t : Str) (score total now : Nat) (e : Entry) :
    (updateRow u t score total now e).id = e.id ∧
    (updateRow u t score total now e).user_id = e.user_id ∧
    (updateRow u t score total now e).topic = e.topic ∧
    e.percentage ≤ (updateRow u t score total now e).percentage := by
  unfold updateRow
  by_cases h : e.user_id = u ∧ e.topic = t ∧
      e.percentage < score_percentage score total
  · rw [if_pos h]
    exact ⟨rfl, rfl, rfl, le_of_lt h.2.2⟩
  · rw [if_neg h]
    exact ⟨rfl, rfl, rfl, le_refl _⟩

/-- One `update_leaderboard` call never loses a row and never decreases a
percentage of any row. -/
theorem update_leaderboard_mono (board : List Entry) (u : Nat) (t : Str)
    (score total now : Nat) :
    ∀ e ∈ board, ∃ e2 ∈ update_leaderboard board u t score total now,
      e2.id = e.id ∧ e2.user_id = e.user_id ∧ e2.topic = e.topic ∧
        e.percentage ≤ e2.percentage := by
  intro e he
  unfold update_leaderboard
  rw [recalc_eq_map]
  by_cases hany : board.any (fun x => x.user_id = u && x.topic = t)
  · have hb : updatedBoard board u t score total now =
        board.map (updateRow u t score total now) := by
      unfold updatedBoard
      rw [if_pos hany]
    rw [hb]
    refine ⟨rankFn (sortedTopicIds (board.map (updateRow u t score total now)) t) 1
        (updateRow u t score total now e),
      List.mem_map.mpr ⟨updateRow u t score total now e,
        List.mem_map.mpr ⟨e, he, rfl⟩, rfl⟩, ?_, ?_, ?_, ?_⟩
    · rw [(rankFn_frame _ _ _).1, (updateRow_frame u t score total now e).1]
    · rw [(rankFn_frame _ _ _).2.1, (updateRow_frame u t score total now e).2.1]
    · rw [(rankFn_frame _ _ _).2.2.1, (updateRow_frame u t score total now e).2.2.1]
    · rw [(rankFn_frame _ _ _).2.2.2.2.2.1]
      exact (updateRow_frame u t score total now e).2.2.2
  · have hb : updatedBoard board u t score total now =
        board ++ [newEntry board u t score total now] := by
      unfold updatedBoard
      rw [if_neg hany]
    rw [hb]
    refine ⟨rankFn (sortedTopicIds (board ++ [newEntry board u t score total now]) t)
        1 e,
      List.mem_map.mpr ⟨e, List.mem_append_left _ he, rfl⟩, ?_, ?_, ?_, ?_⟩
    · exact (rankFn_frame _ _ _).1
    · exact (rankFn_frame _ _ _).2.1
    · exact (rankFn_frame _ _ _).2.2.1
    · rw [(rankFn_frame _ _ _).2.2.2.2.2.1]

theorem apply_updates_mono (ops : List UpdOp) (board : List Entry) :
    ∀ e ∈ board, ∃ e2 ∈ apply_updates board ops,
      e2.id = e.id ∧ e2.user_id = e.user_id ∧ e2.topic = e.topic ∧
        e.percentage ≤ e2.percentage := by
  induction ops generalizing board with
  | nil =>
    intro e he
    exact ⟨e, he, rfl, rfl, rfl, le_refl _⟩
  | cons o rest ih =>
    intro e he
    rcases update_leaderboard_mono board o.user o.topic o.score o.total o.now e he
      with ⟨e1, he1, hid, huser, htopic, hle⟩
    rcases ih (update_leaderboard board o.user o.topic o.score o.total o.now) e1 he1
      with ⟨e2, he2, hid2, huser2, htopic2, hle2⟩
    exact ⟨e2, he2, hid2.trans hid, huser2.trans huser, htopic2.trans htopic,
      le_trans hle hle2⟩

/-- C5: `update_leaderboard` keeps the best score per (user, topic): every
stored row survives with its percentage not decreased; when the incoming
percentage is not strictly greater than that of a stored row for the same
(user, topic), the score, total, percentage and timestamp of that row stay unchanged
(ties do not overwrite); when no row for the pair exists a new row carrying
the submission is inserted; and across any sequence of updates no stored
row has its percentage decreased. -/
theorem update_leaderboard_keeps_best (board : List Entry) (u : Nat) (t : Str)
    (score total now : Nat) :
    (∀ e ∈ board, ∃ e2 ∈ update_leaderboard board u t score total now,
       e2.id = e.id ∧ e2.user_id = e.user_id ∧ e2.topic = e.topic ∧
         e.percentage ≤ e2.percentage) ∧
    (∀ e ∈ board, e.user_id = u → e.topic = t →
       score_percentage score total ≤ e.percentage →
       ∃ e2 ∈ update_leaderboard board u t score total now,
         e2.id = e.id ∧ e2.score = e.score ∧
           e2.total_questions = e.total_questions ∧
           e2.percentage = e.percentage ∧ e2.timestamp = e.timestamp) ∧
    ((∀ e ∈ board, ¬(e.user_id = u ∧ e.topic = t)) →
       ∃ e2 ∈ update_leaderboard board u t score total now,
         e2.user_id = u ∧ e2.topic = t ∧ e2.score = score ∧
           e2.total_questions = total ∧
           e2.percentage = score_percentage score total ∧ e2.timestamp = now) ∧
    (∀ ops : List UpdOp, ∀ e ∈ board,
       ∃ e2 ∈ apply_updates board ops,
         e2.id = e.id ∧ e2.user_id = e.user_id ∧ e2.topic = e.topic ∧
           e.percentage ≤ e2.percentage) := by
  refine ⟨update_leaderboard_mono board u t score total now, ?_, ?_,
    fun ops => apply_updates_mono ops board⟩
  · intro e he hu ht hp
    have hrow : updateRow u t score total now e = e := by
      unfold updateRow
      rw [if_neg]
      rintro ⟨-, -, hlt⟩
      exact absurd hlt (not_lt.mpr hp)
    unfold update_leaderboard
    rw [recalc_eq_map]
    by_cases hany : board.any (fun x => x.user_id = u && x.topic = t)
    · have hb : updatedBoard board u t score total now =
          board.map (updateRow u t score total now) := by
        unfold updatedBoard
        rw [if_pos hany]
      rw [hb]
      refine ⟨rankFn (sortedTopicIds (board.map (updateRow u t score total now)) t)
          1 (updateRow u t score total now e),
        List.mem_map.mpr ⟨updateRow u t score total now e,
          List.mem_map.mpr ⟨e, he, rfl⟩, rfl⟩, ?_, ?_, ?_, ?_, ?_⟩
      · rw [(rankFn_frame _ _ _).1, hrow]
      · rw [(rankFn_frame _ _ _).2.2.2.1, hrow]
      · rw [(rankFn_frame _ _ _).2.2.2.2.1, hrow]
      · rw [(rankFn_frame _ _ _).2.2.2.2.2.1, hrow]
      · rw [(rankFn_frame _ _ _).2.2.2.2.2.2, hrow]
    · have hb : updatedBoard board u t score total now =
          board ++ [newEntry board u t score total now] := by
        unfold updatedBoard
        rw [if_neg hany]
      rw [hb]
      refine ⟨rankFn
          (sortedTopicIds (board ++ [newEntry board u t score total now]) t) 1 e,
        List.mem_map.mpr ⟨e, List.mem_append_left _ he, rfl⟩,
        (rankFn_frame _ _ _).1, (rankFn_frame _ _ _).2.2.2.1,
        (rankFn_frame _ _ _).2.2.2.2.1, (rankFn_frame _ _ _).2.2.2.2.2.1,
        (rankFn_frame _ _ _).2.2.2.2.2.2⟩
  · intro hnone
    have hany : board.any (fun x => x.user_id = u && x.topic = t) = false := by
      rw [List.any_eq_false]
      intro x hx hpx
      simp only [Bool.and_eq_true, decide_eq_true_eq] at hpx
      exact hnone x hx hpx
    unfold update_leaderboard
    rw [recalc_eq_map]
    have hb : updatedBoard board u t score total now =
        board ++ [newEntry board u t score total now] := by
      unfold updatedBoard
      rw [hany]
      simp
    rw [hb]
    refine ⟨rankFn
        (sortedTopicIds (board ++ [newEntry board u t score total now]) t) 1
        (newEntry board u t score total now),
      List.mem_map.mpr ⟨newEntry board u t score total now,
        List.mem_append_right board (List.mem_singleton.mpr rfl), rfl⟩,
      ?_, ?_, ?_, ?_, ?_, ?_⟩
    · rw [(rankFn_frame _ _ _).2.1]; rfl
    · rw [(rankFn_frame _ _ _).2.2.1]; rfl
    · rw [(rankFn_frame _ _ _).2.2.2.1]; rfl
    · rw [(rankFn_frame _ _ _).2.2.2.2.1]; rfl
    · rw [(rankFn_frame _ _ _).2.2.2.2.2.1]; rfl
    · rw [(rankFn_frame _ _ _).2.2.2.2.2.2]; rfl

/-- C10: recalculating the ranks of a topic touches only the `rank` column of
the rows of that topic: the table keeps its length and row order, every non-rank
column of every row is unchanged, and rows of any other topic are unchanged
entirely. -/
theorem recalculate_ranks_frame (board : List Entry) (t : Str)
    (h : (board.map (fun e => e.id)).Nodup) :
    (recalculate_leaderboard_ranks board t).length = board.length ∧
    ∀ i : Nat, ∀ e : Entry, board[i]? = some e →
      ∃ e2 : Entry, (recalculate_leaderboard_ranks board t)[i]? = some e2 ∧
        e2.id = e.id ∧ e2.user_id = e.user_id ∧ e2.topic = e.topic ∧
        e2.score = e.score ∧ e2.total_questions = e.total_questions ∧
        e2.percentage = e.percentage ∧ e2.timestamp = e.timestamp ∧
        (e.topic ≠ t → e2 = e) := by
  constructor
  · rw [recalc_eq_map]
    exact List.length_map board _
  · intro i e hi
    have hmem : e ∈ board := List.getElem?_mem hi
    refine ⟨rankFn (sortedTopicIds board t) 1 e, ?_, (rankFn_frame _ _ _).1,
      (rankFn_frame _ _ _).2.1, (rankFn_frame _ _ _).2.2.1,
      (rankFn_frame _ _ _).2.2.2.1, (rankFn_frame _ _ _).2.2.2.2.1,
      (rankFn_frame _ _ _).2.2.2.2.2.1, (rankFn_frame _ _ _).2.2.2.2.2.2,
      fun hne => rankFn_other_topic board t h e hmem hne⟩
    rw [recalc_eq_map, List.getElem?_map, hi]
    rfl

/-- A small concrete table used to exercise the leaderboard theorems: three
rows of topic "A" (with a percentage tie), one row of topic "B". -/
def wTopic : Str := "A".toList

def wBoard : List Entry :=
  [{ id := 1, user_id := 10, topic := "A".toList, score := 3,
     total_questions := 5, percentage := 60, rank := none, timestamp := 100 },
   { id := 2, user_id := 11, topic := "A".toList, score := 4,
     total_questions := 5, percentage := 80, rank := none, timestamp := 50 },
   { id := 3, user_id := 12, topic := "A".toList, score := 4,
     total_questions := 5, percentage := 80, rank := none, timestamp := 90 },
   { id := 4, user_id := 13, topic := "B".toList, score := 7,
     total_questions := 10, percentage := 70, rank := none, timestamp := 10 }]

/-- Witness for C10 at a concrete table. -/
theorem recalculate_ranks_frame_witness :
    (wBoard.map (fun e => e.id)).Nodup ∧
    (recalculate_leaderboard_ranks wBoard wTopic).length = wBoard.length :=
  ⟨by decide, (recalculate_ranks_frame wBoard wTopic (by decide)).1⟩

theorem filtered_recalc_eq (board : List Entry) (t : Str) :
    (recalculate_leaderboard_ranks board t).filter (fun e => e.topic = t) =
      (board.filter (fun e => e.topic = t)).map
        (rankFn (sortedTopicIds board t) 1) := by
  rw [recalc_eq_map, List.filter_map]
  congr 1
  apply List.filter_congr
  intro e _
  simp only [Function.comp_apply]
  rw [(rankFn_frame (sortedTopicIds board t) 1 e).2.2.1]

/-- C6: after `recalculate_leaderboard_ranks(topic)`, the ranks of that
N rows of that topic are exactly a permutation of 1..N (dense, no gaps, no
duplicates), and they respect the ordering: a better-ranked row has a
strictly greater percentage, or an equal percentage and a timestamp at least
as recent. -/
theorem recalculate_ranks_dense_and_sorted (board : List Entry) (t : Str)
    (h : (board.map (fun e => e.id)).Nodup) :
    List.Perm
      (((recalculate_leaderboard_ranks board t).filter
          (fun e => e.topic = t)).map (fun e => e.rank))
      ((List.range ((board.filter (fun e => e.topic = t)).length)).map
        (fun k => some (k + 1))) ∧
    (∀ e1 ∈ (recalculate_leaderboard_ranks board t).filter (fun e => e.topic = t),
     ∀ e2 ∈ (recalculate_leaderboard_ranks board t).filter (fun e => e.topic = t),
     ∀ r1 r2 : Nat, e1.rank = some r1 → e2.rank = some r2 → r1 < r2 →
       e2.percentage < e1.percentage ∨
         (e1.percentage = e2.percentage ∧ e2.timestamp ≤ e1.timestamp)) := by
  have hSnd : (sortedTopicIds board t).Nodup := sortedTopicIds_nodup board t h
  have hlen : (sortedTopicIds board t).length =
      (board.filter (fun e => e.topic = t)).length := by
    unfold sortedTopicIds
    rw [List.length_map, List.length_mergeSort]
  have hranks : ((board.filter (fun e => e.topic = t)).map
        (rankFn (sortedTopicIds board t) 1)).map (fun e => e.rank) =
      (board.filter (fun e => e.topic = t)).map
        (fun e => some (1 + (sortedTopicIds board t).indexOf e.id)) := by
    rw [List.map_map]
    apply List.map_congr_left
    intro e he
    have heb : e ∈ board := (List.mem_filter.mp he).1
    have het : e.topic = t := by simpa using (List.mem_filter.mp he).2
    simp only [Function.comp_apply]
    rw [rankFn_topic_row board t h e heb het]
  have hperm1 : List.Perm
      ((board.filter (fun e => e.topic = t)).map (fun e => e.id))
      (sortedTopicIds board t) :=
    ((List.mergeSort_perm (board.filter (fun e => e.topic = t)) entryLE).map
      (fun e => e.id)).symm
  have hSmap : (sortedTopicIds board t).map
        (fun i => some (1 + (sortedTopicIds board t).indexOf i)) =
      (List.range ((board.filter (fun e => e.topic = t)).length)).map
        (fun k => some (k + 1)) := by
    apply List.ext_getElem
    · rw [List.length_map, List.length_map, List.length_range, hlen]
    · intro n h1 h2
      have hn : n < (sortedTopicIds board t).length := by
        rw [List.length_map] at h1
        exact h1
      rw [List.getElem_map, List.getElem_map, List.getElem_range]
      have hidx : (sortedTopicIds board t).indexOf
          ((sortedTopicIds board t).get ⟨n, hn⟩) = n :=
        nodup_indexOf_get hSnd n hn
      rw [List.get_eq_getElem] at hidx
      rw [hidx, Nat.add_comm]
  constructor
  · rw [filtered_recalc_eq, hranks]
    have hcomp : (board.filter (fun e => e.topic = t)).map
          (fun e => some (1 + (sortedTopicIds board t).indexOf e.id)) =
        ((board.filter (fun e => e.topic = t)).map (fun e => e.id)).map
          (fun i => some (1 + (sortedTopicIds board t).indexOf i)) := by
      rw [List.map_map]
      rfl
    rw [hcomp, ← hSmap]
    exact hperm1.map _
  · intro e1 he1 e2 he2 r1 r2 hr1 hr2 hlt
    rw [filtered_recalc_eq] at he1 he2
    rcases List.mem_map.mp he1 with ⟨f1, hf1, rfl⟩
    rcases List.mem_map.mp he2 with ⟨f2, hf2, rfl⟩
    have hf1b : f1 ∈ board := (List.mem_filter.mp hf1).1
    have hf1t : f1.topic = t := by simpa using (List.mem_filter.mp hf1).2
    have hf2b : f2 ∈ board := (List.mem_filter.mp hf2).1
    have hf2t : f2.topic = t := by simpa using (List.mem_filter.mp hf2).2
    rw [rankFn_topic_row board t h f1 hf1b hf1t] at hr1 ⊢
    rw [rankFn_topic_row board t h f2 hf2b hf2t] at hr2 ⊢
    have hr1' : some (1 + (sortedTopicIds board t).indexOf f1.id) = some r1 := hr1
    have hr2' : some (1 + (sortedTopicIds board t).indexOf f2.id) = some r2 := hr2
    have hk1e : r1 = 1 + (sortedTopicIds board t).indexOf f1.id :=
      (Option.some.inj hr1').symm
    have hk2e : r2 = 1 + (sortedTopicIds board t).indexOf f2.id :=
      (Option.some.inj hr2').symm
    have hklt : (sortedTopicIds board t).indexOf f1.id <
        (sortedTopicIds board t).indexOf f2.id := by omega
    have hk2lt : (sortedTopicIds board t).indexOf f2.id <
        (sortedTopicIds board t).length :=
      List.indexOf_lt_length.mpr (mem_sortedTopicIds board t f2 hf2b hf2t)
    have hk1lt : (sortedTopicIds board t).indexOf f1.id <
        (sortedTopicIds board t).length := lt_trans hklt hk2lt
    have hMlenS : ((board.filter (fun e => e.topic = t)).mergeSort entryLE).length =
        (sortedTopicIds board t).length := by
      unfold sortedTopicIds
      rw [List.length_map]
    have hk1M : (sortedTopicIds board t).indexOf f1.id <
        ((board.filter (fun e => e.topic = t)).mergeSort entryLE).length := by
      rw [hMlenS]; exact hk1lt
    have hk2M : (sortedTopicIds board t).indexOf f2.id <
        ((board.filter (fun e => e.topic = t)).mergeSort entryLE).length := by
      rw [hMlenS]; exact hk2lt
    have hsorted :=
      List.sorted_mergeSort entryLE_trans entryLE_total
        (board.filter (fun e => e.topic = t))
    have hpair :=
      List.pairwise_iff_getElem.mp hsorted
        ((sortedTopicIds board t).indexOf f1.id)
        ((sortedTopicIds board t).indexOf f2.id) hk1M hk2M hklt
    have hpair' : entryLE
        (((board.filter (fun e => e.topic = t)).mergeSort entryLE).get
          ⟨(sortedTopicIds board t).indexOf f1.id, hk1M⟩)
        (((board.filter (fun e => e.topic = t)).mergeSort entryLE).get
          ⟨(sortedTopicIds board t).indexOf f2.id, hk2M⟩) := hpair
    have hgetid1 : (((board.filter (fun e => e.topic = t)).mergeSort entryLE).get
        ⟨(sortedTopicIds board t).indexOf f1.id, hk1M⟩).id = f1.id := by
      have hx : (sortedTopicIds board t).get
          ⟨(sortedTopicIds board t).indexOf f1.id, hk1lt⟩ = f1.id :=
        List.indexOf_get hk1lt
      rw [List.get_eq_getElem] at hx
      rw [List.get_eq_getElem]
      unfold sortedTopicIds at hx
      rw [List.getElem_map] at hx
      exact hx
    have hgetid2 : (((board.filter (fun e => e.topic = t)).mergeSort entryLE).get
        ⟨(sortedTopicIds board t).indexOf f2.id, hk2M⟩).id = f2.id := by
      have hx : (sortedTopicIds board t).get
          ⟨(sortedTopicIds board t).indexOf f2.id, hk2lt⟩ = f2.id :=
        List.indexOf_get hk2lt
      rw [List.get_eq_getElem] at hx
      rw [List.get_eq_getElem]
      unfold sortedTopicIds at hx
      rw [List.getElem_map] at hx
      exact hx
    have hmemM1 : (((board.filter (fun e => e.topic = t)).mergeSort entryLE).get
        ⟨(sortedTopicIds board t).indexOf f1.id, hk1M⟩) ∈ board := by
      have := List.get_mem _ _ hk1M
      have hF := List.mem_mergeSort.mp this
      exact (List.mem_filter.mp hF).1
    have hmemM2 : (((board.filter (fun e => e.topic = t)).mergeSort entryLE).get
        ⟨(sortedTopicIds board t).indexOf f2.id, hk2M⟩) ∈ board := by
      have := List.get_mem _ _ hk2M
      have hF := List.mem_mergeSort.mp this
      exact (List.mem_filter.mp hF).1
    have heqf1 : (((board.filter (fun e => e.topic = t)).mergeSort entryLE).get
        ⟨(sortedTopicIds board t).indexOf f1.id, hk1M⟩) = f1 :=
      List.inj_on_of_nodup_map h hmemM1 hf1b hgetid1
    have heqf2 : (((board.filter (fun e => e.topic = t)).mergeSort entryLE).get
        ⟨(sortedTopicIds board t).indexOf f2.id, hk2M⟩) = f2 :=
      List.inj_on_of_nodup_map h hmemM2 hf2b hgetid2
    rw [heqf1, heqf2] at hpair'
    simpa only [entryLE, decide_eq_true_eq] using hpair'

/-- Witness for C6 at a concrete table. -/
theorem recalculate_ranks_dense_and_sorted_witness :
    (wBoard.map (fun e => e.id)).Nodup ∧
    List.Perm
      (((recalculate_leaderboard_ranks wBoard wTopic).filter
          (fun e => e.topic = wTopic)).map (fun e => e.rank))
      ((List.range ((wBoard.filter (fun e => e.topic = wTopic)).length)).map
        (fun k => some (k + 1))) :=
  ⟨by decide, (recalculate_ranks_dense_and_sorted wBoard wTopic (by decide)).1⟩

def emptyDB : DB := { scores := [], certificates := [], leaderboard := [] }

/-- C1: the claim says a certificate is issued exactly when the percentage
`100*correctCount/total` is at least 80, but `save_user_score` tests the raw
correct count (`score >= 80`).  A 4-out-of-5 submission grades to exactly 80
percent — and the results screen announces an earned certificate — yet no
certificate row is written; conversely 80-out-of-200 (40 percent) does write
one. -/
theorem cert_issued_on_raw_count_not_percentage :
    score_percentage 4 5 = 80 ∧
    announcesCertificate (score_percentage 4 5) = true ∧
    (save_user_score emptyDB 1 "Python".toList 4 5 "Medium".toList none
      0).certificates = [] ∧
    score_percentage 80 200 = 40 ∧
    (save_user_score emptyDB 1 "Python".toList 80 200 "Medium".toList none
      0).certificates ≠ [] := by
  refine ⟨?_, ?_, ?_, ?_, ?_⟩
  · norm_num [score_percentage]
  · have h : score_percentage 4 5 = 80 := by norm_num [score_percentage]
    rw [h]
    rfl
  · rfl
  · norm_num [score_percentage]
  · intro hc
    simp only [save_user_score, insertCertificate] at hc
    simp at hc

/-- C7 counterexample: two qualifying submissions by the same user on the
same topic at different seconds leave two certificate rows for that
(user, topic) pair — the upsert does not key on the pair. -/
theorem certificates_accumulate_for_same_pair :
    ((save_user_score (save_user_score emptyDB 1 "Python".toList 80 100
          "Medium".toList none 0)
        1 "Python".toList 90 100 "Medium".toList none 1).certificates.filter
      (fun c => decide (c.user_id = 1 ∧ c.topic = "Python".toList))).length = 2 := by
  rfl

/-- C7 (amended): the certificate store retains at most one row per
`certificate_id`, i.e. per (user, whole-second issue time): the
INSERT OR REPLACE removes exactly the rows carrying the colliding
`certificate_id` and appends the new row, leaving every row with a different
`certificate_id` — including earlier rows for the same (user, topic) issued
at other seconds — in place. -/
theorem insertCertificate_replaces_only_same_id (certs : List Cert) (u : Nat)
    (t : Str) (score now : Nat) :
    ((insertCertificate certs u t score now).filter
        (fun c => decide (c.certificate_id = (u, now)))).length = 1 ∧
    (∀ c ∈ certs, c.certificate_id ≠ (u, now) →
      c ∈ insertCertificate certs u t score now) ∧
    (∀ c ∈ insertCertificate certs u t score now,
      c ∈ certs ∨ c.certificate_id = (u, now)) := by
  refine ⟨?_, ?_, ?_⟩
  · unfold insertCertificate
    rw [List.filter_append, List.filter_filter]
    have h1 : certs.filter
        (fun c => decide (c.certificate_id = (u, now)) &&
          decide (c.certificate_id ≠ (u, now))) = [] := by
      rw [List.filter_eq_nil_iff]
      intro c _
      simp
    rw [h1]
    simp
  · intro c hc hne
    exact List.mem_append_left _ (List.mem_filter.mpr ⟨hc, by simpa using hne⟩)
  · intro c hc
    rcases List.mem_append.mp hc with hc | hc
    · exact Or.inl (List.mem_filter.mp hc).1
    · exact Or.inr (by rw [List.mem_singleton.mp hc])

def rawLowerAnswer : Str := "Q?\na) 1\nb) 2\nc) 3\nd) 4\nanswer: b".toList

def rawUpperAnswer : Str := "Q?\na) 1\nb) 2\nc) 3\nd) 4\nAnswer: B".toList

/-- C8 counterexample: the answer label is matched case-sensitively and the
extracted correct option is the whole unchanged remainder, not a lower-cased
first letter: a lower-case "answer: b" line yields an empty correct option
(the claim says it should yield "b"), and an upper-case "Answer: B" line
yields "B" unlowered (the claim says "b"). -/
theorem parse_answer_label_counterexample :
    (parseQuestions rawLowerAnswer).map (fun q => q.correctOption) = [[]] ∧
    (parseQuestions rawUpperAnswer).map (fun q => q.correctOption) = [['B']] := by
  constructor <;> rfl

theorem filterMap_parseBlock_eq (l : List Str) :
    l.filterMap parseBlock = (l.filter blockQualifies).map questionOfBlock := by
  induction l with
  | nil => rfl
  | cons b rest ih =>
    by_cases hb : blockQualifies b
    · simp [List.filterMap_cons, List.filter_cons, parseBlock, hb, ih]
    · simp [List.filterMap_cons, List.filter_cons, parseBlock, hb, ih]

/-- C8 (amended): parsing splits the raw text on blank lines and produces, in
input order, exactly one question per block that is non-blank and has at
least 6 lines after stripping; shorter or blank blocks are omitted and
parsing is total (never raises).  Every produced question has exactly 4
options; its correct option comes from `extractCorrect` on line 6, which
requires the case-sensitive literal label "Answer:" and keeps the whole
stripped remainder — not a lower-cased first letter, and not restricted to
a, b, c, d. -/
theorem parse_blocks_characterization (raw : Str) :
    parseQuestions raw =
      ((splitOnSeq ['\n', '\n'] raw).filter blockQualifies).map questionOfBlock ∧
    (∀ q ∈ parseQuestions raw, q.options.length = 4) := by
  constructor
  · exact filterMap_parseBlock_eq _
  · intro q hq
    unfold parseQuestions at hq
    rw [filterMap_parseBlock_eq] at hq
    rcases List.mem_map.mp hq with ⟨b, hbf, rfl⟩
    have h6 : 6 ≤ (splitOnSeq ['\n'] (stripChars b)).length := by
      have hb := (List.mem_filter.mp hbf).2
      simp only [blockQualifies, Bool.and_eq_true, decide_eq_true_eq] at hb
      exact hb.2
    simp only [questionOfBlock, List.length_take, List.length_drop]
    omega

